import Mathlib

/-!
Verification development for the mini-async-http repository.

Bytes are modelled as natural numbers (`List Nat` for byte strings).
The incremental HTTP head parser used by `RequestParser::parse_u8` comes
from the external `httparse` crate, whose code is not part of the
repository; it is modelled from the spec's wire-protocol grammar
(request line `METHOD SP TARGET SP HTTP/1.1 CRLF`, then header lines
`name: value CRLF` until an empty `CRLF`), together with the visible
64-header capacity that `parse_u8` passes to it.  Everything else is
translated directly from the Rust sources.
-/

namespace MiniAsyncHttp

/-- ASCII lowercase of one byte, as in Rust `u8::to_ascii_lowercase`. -/
def lowerByte (b : Nat) : Nat :=
  if 65 ≤ b ∧ b ≤ 90 then b + 32 else b

/-- ASCII lowercase of a byte string, as in Rust `str::to_ascii_lowercase`. -/
def lowerBytes (s : List Nat) : List Nat :=
  s.map lowerByte

/-! ### Headers (src/http/headers.rs)

`Headers` wraps a `HashMap<String, String>`; it is modelled as an
association list where insertion removes the previous binding of the key,
matching `HashMap::insert` overwrite semantics.  Only `set_header`,
`get_header` and the derived lookup behaviour are needed by the claims. -/

/-- First value bound to `k` in an association list of byte strings. -/
def assocFind (k : List Nat) : List (List Nat × List Nat) → Option (List Nat)
  | [] => none
  | p :: ps => if p.1 = k then some p.2 else assocFind k ps

structure Headers where
  map : List (List Nat × List Nat)
deriving DecidableEq

/-- Headers::new -/
def Headers.new : Headers := ⟨[]⟩

/-- Headers::set_header: lowercases BOTH the name and the value, then
inserts, overwriting any existing binding of the (lowercased) name. -/
def Headers.set_header (h : Headers) (name value : List Nat) : Headers :=
  ⟨(lowerBytes name, lowerBytes value) ::
    h.map.filter (fun p => decide (p.1 ≠ lowerBytes name))⟩

/-- Headers::get_header: lowercases the queried name, then looks it up. -/
def Headers.get_header (h : Headers) (name : List Nat) : Option (List Nat) :=
  assocFind (lowerBytes name) h.map

/-! ### Method and Version (src/http/method.rs, src/http/version.rs) -/

inductive Method where
  | GET
  | POST
  | PUT
  | DELETE
deriving DecidableEq

/-- Byte string of the UTF-8 token GET. -/
def methodGETBytes : List Nat := [71, 69, 84]

/-- Byte string of the UTF-8 token POST. -/
def methodPOSTBytes : List Nat := [80, 79, 83, 84]

/-- Byte string of the UTF-8 token PUT. -/
def methodPUTBytes : List Nat := [80, 85, 84]

/-- Byte string of the UTF-8 token DELETE. -/
def methodDELETEBytes : List Nat := [68, 69, 76, 69, 84, 69]

/-- Method::from_str, comparison order as in the source. -/
def Method.from_str (s : List Nat) : Option Method :=
  if s = methodGETBytes then some .GET
  else if s = methodPOSTBytes then some .POST
  else if s = methodDELETEBytes then some .DELETE
  else if s = methodPUTBytes then some .PUT
  else none

inductive Version where
  | HTTP11
deriving DecidableEq

/-! ### Parse errors (src/http/parser.rs) -/

inductive ParseError where
  | FirstLine
  | WrongMethod
  | WrongVersion
  | UnexpectedEnd
  | HeaderError
  | BuilderError
  | LengthParse
  | BodyReadException
  | CodeParseError
  | HeaderName
  | HeaderValue
  | NewLine
  | Status
  | Token
  | TooManyHeaders
  | Version
deriving DecidableEq

/-! ### Request value object (src/request/request.rs) -/

structure Request where
  method : Method
  path : List Nat
  version : Version
  headers : Headers
  body : Option (List Nat)
deriving DecidableEq

/-! ### Modelled httparse head parser

Modelled from the spec: the `httparse` crate (request line
`METHOD SP TARGET SP HTTP/1.1 CRLF`, header lines `name: value CRLF`
until an empty line) is an external dependency whose code is not in this
repository.  The model below is an incremental recursive-descent parser:
it answers `needMore` whenever the input ends before the head is
complete, `fail e` when a byte contradicts the grammar, and
`done v rest` with the unconsumed suffix on success.  Header values are
restricted to ASCII (so that the `String::from_utf8(...).unwrap()` in
`parse_u8` cannot fail inside the modelled grammar), and at most 64
header fields are accepted, matching the `[httparse::EMPTY_HEADER; 64]`
array that `parse_u8` passes to `httparse::Request::parse`. -/

inductive Step (α : Type) where
  | done (v : α) (rest : List Nat)
  | needMore
  | fail (e : ParseError)
deriving DecidableEq

/-- Sequencing of incremental parse results. -/
def Step.bind {α β : Type} (s : Step α) (f : α → List Nat → Step β) : Step β :=
  match s with
  | .done v rest => f v rest
  | .needMore => .needMore
  | .fail e => .fail e

/-- HTTP token characters (RFC 7230 tchar): digits, letters, and
the symbols in the byte list below. -/
def isTchar (b : Nat) : Bool :=
  (48 ≤ b && b ≤ 57) || (65 ≤ b && b ≤ 90) || (97 ≤ b && b ≤ 122) ||
    [33, 35, 36, 37, 38, 39, 42, 43, 45, 46, 94, 95, 96, 124, 126].contains b

/-- Request-target bytes: printable ASCII other than space. -/
def isPathByte (b : Nat) : Bool :=
  33 ≤ b && b ≤ 126

/-- Header-value bytes: horizontal tab or printable ASCII (incl. space). -/
def isValueByte (b : Nat) : Bool :=
  b = 9 || (32 ≤ b && b ≤ 126)

/-- Collect bytes satisfying `ok` until the byte `stop` (consumed);
the collected run may be empty.  Ends of input yield `needMore`. -/
def scanUntil (ok : Nat → Bool) (stop : Nat) (e : ParseError) :
    List Nat → Step (List Nat)
  | [] => .needMore
  | b :: rest =>
    if b = stop then .done [] rest
    else if ok b then
      match scanUntil ok stop e rest with
      | .done t r => .done (b :: t) r
      | .needMore => .needMore
      | .fail e2 => .fail e2
    else .fail e

/-- Like `scanUntil` but the collected run must be nonempty. -/
def scanTok (ok : Nat → Bool) (stop : Nat) (e : ParseError)
    (bs : List Nat) : Step (List Nat) :=
  match scanUntil ok stop e bs with
  | .done [] _ => .fail e
  | s => s

/-- Consume exactly the bytes of `pat`. -/
def expectBytes (e : ParseError) : List Nat → List Nat → Step Unit
  | [], rest => .done () rest
  | _ :: _, [] => .needMore
  | p :: ps, b :: rest => if b = p then expectBytes e ps rest else .fail e

/-- Skip spaces and horizontal tabs (leading whitespace of a header value). -/
def skipWs : List Nat → Step Unit
  | [] => .needMore
  | b :: rest => if b = 32 ∨ b = 9 then skipWs rest else .done () (b :: rest)

/-- One header line `name: value CRLF` (optional whitespace after the colon). -/
def parseOneHeader (bs : List Nat) : Step (List Nat × List Nat) :=
  (scanTok isTchar 58 .HeaderName bs).bind fun name r1 =>
  (skipWs r1).bind fun _ r2 =>
  (scanUntil isValueByte 13 .HeaderValue r2).bind fun v r3 =>
  (expectBytes .NewLine [10] r3).bind fun _ r4 =>
  Step.done (name, v) r4

/-- Header block: header lines until the empty `CRLF`; at most 64 fields.
`fuel` is a totality device only; every recursion consumes at least one
byte, so any fuel above the input length is sufficient and the fuel-out
branch is unreachable in all uses. -/
def parseHeadersF : Nat → Nat → List Nat → Step (List (List Nat × List Nat))
  | 0, _, _ => .fail .UnexpectedEnd
  | _ + 1, _, [] => .needMore
  | fuel + 1, count, b :: rest =>
    if b = 13 then
      match rest with
      | [] => .needMore
      | c :: r => if c = 10 then .done [] r else .fail .NewLine
    else if 64 ≤ count then .fail .TooManyHeaders
    else
      (parseOneHeader (b :: rest)).bind fun hv r =>
      (parseHeadersF fuel (count + 1) r).bind fun hs r2 =>
      Step.done (hv :: hs) r2

/-- Byte string of the UTF-8 text HTTP/1.1 followed by CR LF. -/
def versionBytes : List Nat := [72, 84, 84, 80, 47, 49, 46, 49, 13, 10]

/-- Request line `METHOD SP TARGET SP HTTP/1.1 CRLF`. -/
def reqLineCore (bs : List Nat) : Step (List Nat × List Nat) :=
  (scanTok isTchar 32 .Token bs).bind fun m r1 =>
  (scanTok isPathByte 32 .Token r1).bind fun p r2 =>
  (expectBytes .Version versionBytes r2).bind fun _ r3 =>
  Step.done (m, p) r3

/-- Request line followed by the header block (the full head). -/
def httparseReq (bs : List Nat) :
    Step (List Nat × List Nat × List (List Nat × List Nat)) :=
  (reqLineCore bs).bind fun mp r3 =>
  (parseHeadersF (bs.length + 1) 0 r3).bind fun hs r4 =>
  Step.done (mp.1, mp.2, hs) r4

/-! ### RequestParser::parse_u8 (src/request/request_parser.rs) -/

/-- Result of `parse_u8`; `panicked` models a Rust panic (the source
calls `.unwrap()` on `Method::from_str`, which aborts on an unknown
method token). -/
inductive ParseU8Result where
  | ok (req : Request) (n : Nat)
  | err (e : ParseError)
  | panicked
deriving DecidableEq

/-- Byte string of the UTF-8 text Content-length (the exact string the
source passes to `get_header`). -/
def contentLengthBytes : List Nat :=
  [67, 111, 110, 116, 101, 110, 116, 45, 108, 101, 110, 103, 116, 104]

/-- Rust `str::parse::<usize>` on a decimal byte string (digits only). -/
def parseDec (s : List Nat) : Option Nat :=
  if s ≠ [] ∧ ∀ b ∈ s, 48 ≤ b ∧ b ≤ 57 then
    some (s.foldl (fun acc b => 10 * acc + (b - 48)) 0)
  else none

/-- Fold the raw header fields into a `Headers` map just as the source
loop `for header in req.headers { headers.set_header(...) }` does. -/
def foldHeaders (l : List (List Nat × List Nat)) : Headers :=
  l.foldl (fun h p => h.set_header p.1 p.2) Headers.new

/-- RequestParser::parse_u8.  Parses the head with (the model of)
httparse, then builds the `Request`; reads a `Content-length`-sized body
when that header is present. -/
def parse_u8 (reader : List Nat) : ParseU8Result :=
  match httparseReq reader with
  | .needMore => .err .UnexpectedEnd
  | .fail e => .err e
  | .done (m, p, hdrs) rest =>
    let res := reader.length - rest.length
    match Method.from_str m with
    | none => .panicked
    | some method =>
      let headers := foldHeaders hdrs
      match headers.get_header contentLengthBytes with
      | none =>
        .ok ⟨method, p, .HTTP11, headers, none⟩ res
      | some lenStr =>
        match parseDec lenStr with
        | none => .err .LengthParse
        | some length =>
          if reader.length < res + length then .err .UnexpectedEnd
          else
            .ok ⟨method, p, .HTTP11, headers,
                  some ((reader.drop res).take length)⟩ (res + length)

/-! ### Well-formed wire messages

A valid HTTP/1.1 message as described by the spec: request line,
header fields, and a `Content-Length`-sized body. -/

structure Msg where
  method : List Nat
  path : List Nat
  hdrs : List (List Nat × List Nat)
  body : List Nat

/-- One encoded header field: `name` `:` SP `value` CR LF. -/
def encodeHeader (p : List Nat × List Nat) : List Nat :=
  p.1 ++ [58] ++ (32 :: (p.2 ++ [13, 10]))

/-- Encoded header block: the fields in order, then the empty line CR LF. -/
def headersBytes : List (List Nat × List Nat) → List Nat
  | [] => [13, 10]
  | p :: ps => encodeHeader p ++ headersBytes ps

/-- Encoded head: request line then header block. -/
def Msg.headBytes (m : Msg) : List Nat :=
  m.method ++ 32 :: (m.path ++ 32 :: (versionBytes ++ headersBytes m.hdrs))

/-- Encoded message: head then body. -/
def Msg.encode (m : Msg) : List Nat :=
  m.headBytes ++ m.body

/-- Nonempty first byte is not a space or tab (so the single space written
after the colon is the only leading whitespace of the encoded value). -/
def headNotWs : List Nat → Prop
  | [] => True
  | b :: _ => b ≠ 32 ∧ b ≠ 9

instance : DecidablePred headNotWs := fun l => by
  cases l <;> simp [headNotWs] <;> infer_instance

/-- Content-Length consistency: when the folded header map holds a
`content-length`, it parses to the body length; otherwise the body is empty. -/
def Msg.clConsistent (m : Msg) : Prop :=
  match (foldHeaders m.hdrs).get_header contentLengthBytes with
  | some s => parseDec s = some m.body.length
  | none => m.body = []

instance (m : Msg) : Decidable m.clConsistent := by
  unfold Msg.clConsistent
  cases h : (foldHeaders m.hdrs).get_header contentLengthBytes <;>
    simp only [h] <;> infer_instance

/-- Well-formedness of a message: a recognised method token, a nonempty
target of target bytes, at most 64 header fields with token names and
ASCII values, and a `Content-Length` consistent with the body (equal to
its length when the header is present, empty body when it is absent). -/
def Msg.wf (m : Msg) : Prop :=
  (m.method = methodGETBytes ∨ m.method = methodPOSTBytes ∨
      m.method = methodPUTBytes ∨ m.method = methodDELETEBytes) ∧
  (m.path ≠ [] ∧ ∀ b ∈ m.path, isPathByte b = true) ∧
  (∀ p ∈ m.hdrs, p.1 ≠ [] ∧ (∀ b ∈ p.1, isTchar b = true) ∧
      (∀ b ∈ p.2, isValueByte b = true) ∧ headNotWs p.2) ∧
  m.hdrs.length ≤ 64 ∧
  m.clConsistent

instance (m : Msg) : Decidable m.wf := by
  unfold Msg.wf
  infer_instance

/-- The request that `parse_u8` produces for a well-formed message. -/
def Msg.request (m : Msg) : Request :=
  { method := (Method.from_str m.method).getD Method.GET
    path := m.path
    version := Version.HTTP11
    headers := foldHeaders m.hdrs
    body :=
      match (foldHeaders m.hdrs).get_header contentLengthBytes with
      | some _ => some m.body
      | none => none }

/-! ### Incremental-parser correctness machinery

`Parses p s v` says the parser `p` consumes exactly the segment `s`
producing `v` (whatever follows), and answers `needMore` on every strict
prefix of `s`. -/

def Parses {α : Type} (p : List Nat → Step α) (s : List Nat) (v : α) : Prop :=
  (∀ tail, p (s ++ tail) = .done v tail) ∧
  (∀ k, k < s.length → p (s.take k) = .needMore)

/-- Well-formed header field: nonempty token name, ASCII value whose
first byte is not whitespace. -/
def wfHdr (p : List Nat × List Nat) : Prop :=
  p.1 ≠ [] ∧ (∀ b ∈ p.1, isTchar b = true) ∧
    (∀ b ∈ p.2, isValueByte b = true) ∧ headNotWs p.2

/-- The encoded request line, as one segment. -/
def Msg.reqLine (m : Msg) : List Nat :=
  m.method ++ 32 :: (m.path ++ 32 :: versionBytes)

/-- Concrete message: GET / HTTP/1.1, a Content-length of 3, body abc. -/
def msgEx : Msg :=
  { method := methodGETBytes
    path := [47]
    hdrs := [(contentLengthBytes, [51])]
    body := [97, 98, 99] }

/-- Message whose head is valid per the spec grammar but which carries
65 header fields, one more than the array `parse_u8` hands to httparse. -/
def msg65 : Msg :=
  { method := methodGETBytes
    path := [47]
    hdrs := List.replicate 65 ([97], [98])
    body := [] }

instance : DecidablePred wfHdr := fun p => by
  unfold wfHdr; infer_instance

/-! ### Claim C2 (src/aioserver/worker.rs lines 142-155) -/

/-- Byte string of the UTF-8 text Connection. -/
def connectionBytes : List Nat := [67, 111, 110, 110, 101, 99, 116, 105, 111, 110]

/-- Byte string of the UTF-8 text close. -/
def closeBytes : List Nat := [99, 108, 111, 115, 101]

/-- The close decision in `Worker::work`: after writing the response it
looks up the request's Connection header and closes the stream iff the
stored value equals close exactly. -/
def workerClosesAfter (req : Request) : Bool :=
  match req.headers.get_header connectionBytes with
  | some val => decide (val = closeBytes)
  | none => false

/-- The raw value of the LAST header field in a wire header list whose
lowercased name is `k` (repeated headers fold to the last value). -/
def lastValueFor (k : List Nat) : List (List Nat × List Nat) → Option (List Nat)
  | [] => none
  | p :: ps =>
    match lastValueFor k ps with
    | some v => some v
    | none => if lowerBytes p.1 = k then some p.2 else none

/-- Message carrying the raw wire header Connection: CLOSE (uppercase). -/
def msgClose : Msg :=
  { method := methodGETBytes
    path := [47]
    hdrs := [(connectionBytes, [67, 76, 79, 83, 69])]
    body := [] }

/-! ### Claim C4 (src/aioserver/enhanced_stream.rs parse_buf) -/

inductive BufResult where
  | ok (reqs : List Request) (rest : List Nat)
  | err (e : ParseError)
  | panicked
deriving DecidableEq

/-- The loop body of `EnhancedStream::parse_buf`: repeatedly parse a
request from the front of the buffer; on success drop the consumed
bytes (`split_off`) and continue unless the buffer is now empty; stop
and return the collected requests on `UnexpectedEnd`; return any other
error as is.  `fuel` is a totality device; each successful parse
consumes at least one byte, so fuel above the buffer length suffices. -/
def parse_bufF : Nat → List Nat → BufResult
  | 0, _ => .err .UnexpectedEnd
  | fuel + 1, read =>
    match parse_u8 read with
    | .ok req n =>
      if (read.drop n).isEmpty then .ok [req] (read.drop n)
      else
        match parse_bufF fuel (read.drop n) with
        | .ok reqs r => .ok (req :: reqs) r
        | other => other
    | .err .UnexpectedEnd => .ok [] read
    | .err e => .err e
    | .panicked => .panicked

/-- EnhancedStream::parse_buf. -/
def parse_buf (read : List Nat) : BufResult :=
  parse_bufF (read.length + 1) read

/-! ### Claim C9 (src/http/headers.rs) -/

/-- A byte string with no uppercase ASCII letters. -/
def noUpper (s : List Nat) : Prop :=
  ∀ b ∈ s, ¬(65 ≤ b ∧ b ≤ 90)

/-- All stored header values have no uppercase ASCII letters. -/
def Headers.valuesLower (h : Headers) : Prop :=
  ∀ p ∈ h.map, noUpper p.2

/-! ### Claim C10 (src/data/local_queue.rs) -/

inductive QueueError (α : Type) where
  | Push (v : α)
  | Empty
deriving DecidableEq

/-- LocalQueue wraps a `Vec` (`UnsafeCell<Vec<T>>`); `push` appends at
the end, `pop` removes from the end. -/
structure LocalQueue (α : Type) where
  inner : List α
deriving DecidableEq

/-- DEFAULT_SIZE = u16::MAX. -/
def localQueueSize : Nat := 65535

/-- LocalQueue::push: reject (returning the element) when the queue
already holds DEFAULT_SIZE elements, else append at the end. -/
def LocalQueue.push {α : Type} (q : LocalQueue α) (v : α) :
    Except (QueueError α) (LocalQueue α) :=
  if localQueueSize ≤ q.inner.length then .error (.Push v)
  else .ok ⟨q.inner ++ [v]⟩

/-- LocalQueue::pop: `Vec::pop`, i.e. remove and return the LAST element. -/
def LocalQueue.pop {α : Type} (q : LocalQueue α) :
    Except (QueueError α) (α × LocalQueue α) :=
  match q.inner.getLast? with
  | some v => .ok (v, ⟨q.inner.dropLast⟩)
  | none => .error .Empty

/-! ### Claim C5 (src/io/context.rs)

The runtime context keeps three thread-local `RefCell<Option<_>>` cells
(reactor handle, executor handle, worker).  `start()` creates a reactor,
installs its handle with `set_handle` (a `RefCell::replace`), spawns the
event-loop thread, builds the pool and installs its handle with
`set_pool` (also a `replace`).  It never inspects the previous cell
contents, so it has no state-dependent panic: the only `expect`/`unwrap`
calls concern OS-level reactor creation and handle cloning, modelled
here as succeeding.  `none` in the result would model a Rust panic. -/

structure Context where
  handle : Option Nat
  executor : Option Nat
  worker : Option Nat
deriving DecidableEq

def Context.empty : Context := ⟨none, none, none⟩

/-- context::start on one thread; `h` and `p` stand for the identities
of the freshly created reactor handle and pool handle. -/
def context_start (c : Context) (h p : Nat) : Option Context :=
  some { c with handle := some h, executor := some p }

/-! ### Claims C6 and C7 (src/io/reactor.rs) -/

inductive Interest where
  | readable
  | writable
deriving DecidableEq

/-- Reactor pool state: the mio poller is abstracted away; `freeQueue`
is the `global_injector` channel of free `IoWaker`s (FIFO), and
`registrations` records the sources currently registered with the
poller, by waker key and interest. -/
structure ReactorModel where
  capacity : Nat
  wakerToken : Nat
  freeQueue : List Nat
  registrations : List (Nat × Interest)
deriving DecidableEq

/-- Keys `k, k+1, ..., k+n-1` in order (the `while io_wakers.len() <
capacity` population loop of `Reactor::new`). -/
def populateAux : Nat → Nat → List Nat
  | 0, _ => []
  | n + 1, k => k :: populateAux n (k + 1)

/-- Reactor::new with slot-table capacity `C`: slot 0 is taken by the
self-wake `mio::Waker` (waker_token = 0), and the remaining slots
1..C-1 are created as free `IoWaker`s and sent to the free queue. -/
def reactorNew (C : Nat) : ReactorModel :=
  { capacity := C
    wakerToken := 0
    freeQueue := populateAux (C - 1) 1
    registrations := [] }

/-- Handle::register: `try_recv` one waker off the free queue (panic,
modelled as `none`, when it is empty — the source message is
`Not waker available`), then register the source under
`Token(waker.key)` with READABLE interest. -/
def handleRegister (r : ReactorModel) : Option (Nat × ReactorModel) :=
  match r.freeQueue with
  | [] => none
  | k :: rest =>
    some (k, { r with freeQueue := rest
                      registrations := (k, Interest.readable) :: r.registrations })

/-- Remove the first registration entry with the given key. -/
def removeKey (k : Nat) : List (Nat × Interest) → List (Nat × Interest)
  | [] => []
  | q :: rest => if q.1 = k then rest else q :: removeKey k rest

/-- Handle::deregister: remove the source from the poller and send the
waker back to the free queue (a FIFO channel, so it re-enters at the
back). -/
def handleDeregister (r : ReactorModel) (k : Nat) : ReactorModel :=
  { r with freeQueue := r.freeQueue ++ [k]
           registrations := removeKey k r.registrations }

inductive ROp where
  | reg
  | dereg (k : Nat)
deriving DecidableEq

/-- A trace of register/deregister calls.  A `dereg k` is only legal for
a key currently registered (the caller passes back the waker it obtained
from `register`); an illegal trace yields `none`. -/
def runReactor : ReactorModel → List ROp → Option ReactorModel
  | r, [] => some r
  | r, .reg :: ops =>
    match handleRegister r with
    | none => none
    | some (_, r2) => runReactor r2 ops
  | r, .dereg k :: ops =>
    if k ∈ r.registrations.map Prod.fst then
      runReactor (handleDeregister r k) ops
    else none

/-! ### Claim C7 (Reactor::handle_event) -/

/-- The slot table as seen by `handle_event`: per key, the contents of
that `IoWaker`'s `AtomicTake<Waker>` cell (`some w` = a waker with
identity `w` is stored).  Keys beyond the list model tokens outside the
slab, where `slab.get` returns `None`. -/
structure SlotTable where
  wakerToken : Nat
  slots : List (Option Nat)
deriving DecidableEq

/-- Reactor::handle_event for an event with token `t`: discard self-wake
events (`t = waker_token`); otherwise atomically `take` the stored waker
of slot `t` and wake it (returned as the second component) when present. -/
def handle_event (s : SlotTable) (t : Nat) : SlotTable × Option Nat :=
  if t = s.wakerToken then (s, none)
  else
    match s.slots[t]? with
    | none => (s, none)
    | some none => (s, none)
    | some (some w) => ({ s with slots := s.slots.set t none }, some w)

/-! ### Claim C8 (src/executor/thread_pool.rs) -/

/-- State of one `block_on` submission: `slot` is the task's
`AtomicCell<Option<BoxFuture>>` with the abstract future represented by
the number of polls still needed before `Ready`; `notifyCount` counts
signals sent on the task's sync notify channel; `completed` records
whether some worker has observed `Ready`. -/
structure BOState where
  slot : Option Nat
  notifyCount : Nat
  completed : Bool
deriving DecidableEq

def initBO (n : Nat) : BOState := ⟨some n, 0, false⟩

/-- One worker iteration that dequeued this task (the loop body of
`ThreadPoolBuilder::build`): take the future; if the slot was empty do
nothing (the task already completed); on `Pending` store it back; on
`Ready` leave the slot empty and signal the notify channel once. -/
def processTask (s : BOState) : BOState :=
  match s.slot with
  | none => s
  | some (k + 1) => { s with slot := some k }
  | some 0 => { slot := none, notifyCount := s.notifyCount + 1, completed := true }

/-- The task processed `m` times (re-deliveries after wake-ups included). -/
def runBO : Nat → BOState → BOState
  | 0, s => s
  | m + 1, s => runBO m (processTask s)

/-- PoolHandle::block_on returns `Ok` once `receiver.recv()` obtains the
notify signal, i.e. exactly when a signal has been sent. -/
def blockOnReturns (n m : Nat) : Bool :=
  decide (0 < (runBO m (initBO n)).notifyCount)

/-! ## Theorems -/

theorem parses_pure {α : Type} (v : α) :
    Parses (fun bs => Step.done v bs) [] v := by
  constructor
  · intro tail; simp
  · intro k hk; simp at hk

theorem parses_bind {α β : Type} {p : List Nat → Step α}
    {f : α → List Nat → Step β} {s1 s2 : List Nat} {v1 : α} {v2 : β}
    (hp : Parses p s1 v1) (hf : Parses (f v1) s2 v2) :
    Parses (fun bs => (p bs).bind f) (s1 ++ s2) v2 := by
  constructor
  · intro tail
    have h1 : p ((s1 ++ s2) ++ tail) = .done v1 (s2 ++ tail) := by
      rw [List.append_assoc]; exact hp.1 (s2 ++ tail)
    simp only [h1, Step.bind]
    exact hf.1 tail
  · intro k hk
    rcases lt_or_le k s1.length with h | h
    · have ht : (s1 ++ s2).take k = s1.take k := by
        rw [List.take_append_eq_append_take]
        have : k - s1.length = 0 := by omega
        simp [this]
      rw [ht]
      show (p (s1.take k)).bind f = .needMore
      rw [hp.2 k h]; rfl
    · have ht : (s1 ++ s2).take k = s1 ++ s2.take (k - s1.length) := by
        rw [List.take_append_eq_append_take, List.take_of_length_le h]
      have hj : k - s1.length < s2.length := by
        simp only [List.length_append] at hk; omega
      rw [ht]
      show (p (s1 ++ s2.take (k - s1.length))).bind f = .needMore
      rw [hp.1 (s2.take (k - s1.length))]
      exact hf.2 _ hj

theorem scanUntil_append {ok : Nat → Bool} {stop : Nat} {e : ParseError}
    {t : List Nat} (h2 : ∀ b ∈ t, ok b = true) (h3 : ok stop = false)
    (rest : List Nat) :
    scanUntil ok stop e (t ++ stop :: rest) = .done t rest := by
  induction t with
  | nil => simp [scanUntil]
  | cons b t ih =>
    have hb : ok b = true := h2 b (by simp)
    have hbs : b ≠ stop := by
      intro h; rw [h] at hb; rw [hb] at h3; cases h3
    have ih' := ih (fun x hx => h2 x (by simp [hx]))
    simp [scanUntil, hbs, hb, ih']

theorem scanUntil_all_ok {ok : Nat → Bool} {stop : Nat} {e : ParseError}
    {t : List Nat} (h2 : ∀ b ∈ t, ok b = true) (h3 : ok stop = false) :
    scanUntil ok stop e t = .needMore := by
  induction t with
  | nil => simp [scanUntil]
  | cons b t ih =>
    have hb : ok b = true := h2 b (by simp)
    have hbs : b ≠ stop := by
      intro h; rw [h] at hb; rw [hb] at h3; cases h3
    have ih' := ih (fun x hx => h2 x (by simp [hx]))
    simp [scanUntil, hbs, hb, ih']

theorem parses_scanTok {ok : Nat → Bool} {stop : Nat} {e : ParseError}
    {t : List Nat} (h1 : t ≠ []) (h2 : ∀ b ∈ t, ok b = true)
    (h3 : ok stop = false) :
    Parses (scanTok ok stop e) (t ++ [stop]) t := by
  constructor
  · intro tail
    have hstep : scanUntil ok stop e ((t ++ [stop]) ++ tail) = .done t tail := by
      rw [List.append_assoc]; exact scanUntil_append h2 h3 tail
    cases t with
    | nil => exact absurd rfl h1
    | cons b t => simp only [scanTok, hstep]
  · intro k hk
    have hk' : k ≤ t.length := by
      simp only [List.length_append, List.length_cons, List.length_nil] at hk
      omega
    have ht : (t ++ [stop]).take k = t.take k := by
      rw [List.take_append_eq_append_take]
      have : k - t.length = 0 := by omega
      simp [this]
    have hstep : scanUntil ok stop e (t.take k) = .needMore :=
      scanUntil_all_ok (fun b hb => h2 b (List.take_subset k t hb)) h3
    rw [ht]; simp only [scanTok, hstep]

theorem parses_expectBytes {e : ParseError} (pat : List Nat) :
    Parses (expectBytes e pat) pat () := by
  constructor
  · intro tail
    induction pat with
    | nil => simp [expectBytes]
    | cons p ps ih => simp only [List.cons_append, expectBytes, if_pos rfl]; exact ih
  · intro k hk
    induction pat generalizing k with
    | nil => simp at hk
    | cons p ps ih =>
      cases k with
      | zero => simp [expectBytes]
      | succ j =>
        simp only [List.take_succ_cons, expectBytes, if_pos rfl]
        exact ih j (by simpa using hk)

theorem parses_valueChain (name val : List Nat)
    (hv : ∀ b ∈ val, isValueByte b = true) (hnw : headNotWs val) :
    Parses (fun r1 =>
        (skipWs r1).bind fun _ r2 =>
        (scanUntil isValueByte 13 .HeaderValue r2).bind fun v r3 =>
        (expectBytes .NewLine [10] r3).bind fun _ r4 =>
        Step.done (name, v) r4)
      (32 :: (val ++ [13, 10])) (name, val) := by
  have h13 : isValueByte 13 = false := by decide
  constructor
  · intro tail
    show (skipWs ((32 :: (val ++ [13, 10])) ++ tail)).bind _ = _
    have hsh : (32 :: (val ++ [13, 10])) ++ tail = 32 :: (val ++ 13 :: 10 :: tail) := by
      simp
    rw [hsh]
    cases val with
    | nil =>
      have hsu : scanUntil isValueByte 13 ParseError.HeaderValue
          (([] : List Nat) ++ 13 :: 10 :: tail) = .done [] (10 :: tail) :=
        scanUntil_append (by simp) h13 (10 :: tail)
      simp only [List.nil_append] at hsu
      simp [skipWs, Step.bind, hsu, expectBytes]
    | cons v0 vt =>
      obtain ⟨hw1, hw2⟩ := hnw
      have hsu : scanUntil isValueByte 13 ParseError.HeaderValue
          ((v0 :: vt) ++ 13 :: 10 :: tail) = .done (v0 :: vt) (10 :: tail) :=
        scanUntil_append hv h13 (10 :: tail)
      simp only [List.cons_append] at hsu
      simp [skipWs, hw1, hw2, Step.bind, hsu, expectBytes]
  · intro k hk
    cases k with
    | zero => simp [skipWs, Step.bind]
    | succ i =>
      have hi : i < val.length + 2 := by
        simp only [List.length_cons, List.length_append, List.length_cons,
          List.length_nil] at hk
        omega
      show (skipWs ((32 :: (val ++ [13, 10])).take (i + 1))).bind _ = _
      rw [List.take_succ_cons]
      rcases le_or_lt i val.length with hle | hgt
      · have ht : (val ++ [13, 10]).take i = val.take i := by
          rw [List.take_append_eq_append_take]
          have : i - val.length = 0 := by omega
          simp [this]
        rw [ht]
        cases val with
        | nil => simp [skipWs, Step.bind]
        | cons v0 vt =>
          obtain ⟨hw1, hw2⟩ := hnw
          cases i with
          | zero => simp [skipWs, Step.bind]
          | succ j =>
            rw [List.take_succ_cons]
            have hsu : scanUntil isValueByte 13 ParseError.HeaderValue
                (v0 :: vt.take j) = .needMore := by
              refine scanUntil_all_ok (fun b hb => ?_) h13
              rcases List.mem_cons.mp hb with h | h
              · exact hv b (h ▸ List.mem_cons_self v0 vt)
              · exact hv b (List.mem_cons_of_mem v0 (List.take_subset j vt h))
            simp [skipWs, hw1, hw2, Step.bind, hsu]
      · have hieq : i = val.length + 1 := by omega
        subst hieq
        have ht : (val ++ [13, 10]).take (val.length + 1) = val ++ [13] := by
          rw [List.take_append_eq_append_take, List.take_of_length_le (by omega)]
          simp
        rw [ht]
        have hsu : scanUntil isValueByte 13 ParseError.HeaderValue
            (val ++ 13 :: []) = .done val [] := scanUntil_append hv h13 []
        cases val with
        | nil =>
          simp only [List.nil_append] at hsu
          simp [skipWs, Step.bind, hsu, expectBytes]
        | cons v0 vt =>
          obtain ⟨hw1, hw2⟩ := hnw
          simp only [List.cons_append] at hsu
          simp [skipWs, hw1, hw2, Step.bind, hsu, expectBytes]

theorem parses_parseOneHeader (p : List Nat × List Nat) (hw : wfHdr p) :
    Parses parseOneHeader (encodeHeader p) p := by
  obtain ⟨h1, h2, hv, hnw⟩ := hw
  have hcomp := parses_bind
    (f := fun name r1 =>
      (skipWs r1).bind fun _ r2 =>
      (scanUntil isValueByte 13 .HeaderValue r2).bind fun v r3 =>
      (expectBytes .NewLine [10] r3).bind fun _ r4 =>
      Step.done (name, v) r4)
    (@parses_scanTok isTchar 58 ParseError.HeaderName p.1 h1 h2 (by decide))
    (parses_valueChain p.1 p.2 hv hnw)
  have hseg : encodeHeader p = (p.1 ++ [58]) ++ (32 :: (p.2 ++ [13, 10])) := by
    simp [encodeHeader]
  rw [hseg]
  exact hcomp

theorem encodeHeader_shape (p : List Nat × List Nat) (hw : wfHdr p) :
    ∃ b t, encodeHeader p = b :: t ∧ b ≠ 13 := by
  obtain ⟨h1, h2, _, _⟩ := hw
  obtain ⟨n0, nt, hn⟩ := List.exists_cons_of_ne_nil h1
  refine ⟨n0, nt ++ [58] ++ (32 :: (p.2 ++ [13, 10])), ?_, ?_⟩
  · simp [encodeHeader, hn]
  · intro h
    have ht := h2 n0 (by rw [hn]; exact List.mem_cons_self n0 nt)
    rw [h] at ht
    exact absurd ht (by decide)

theorem parseHeadersF_cons (fuel count b : Nat) (rest : List Nat)
    (hb : b ≠ 13) (hc : ¬ 64 ≤ count) :
    parseHeadersF (fuel + 1) count (b :: rest) =
      (parseOneHeader (b :: rest)).bind fun hv r =>
      (parseHeadersF fuel (count + 1) r).bind fun hs r2 =>
      Step.done (hv :: hs) r2 := by
  simp [parseHeadersF, hb, hc]

theorem parseHeadersF_complete (hdrs : List (List Nat × List Nat)) :
    ∀ count rest fuel, (∀ p ∈ hdrs, wfHdr p) → count + hdrs.length ≤ 64 →
      (headersBytes hdrs ++ rest).length < fuel →
      parseHeadersF fuel count (headersBytes hdrs ++ rest) = .done hdrs rest := by
  induction hdrs with
  | nil =>
    intro count rest fuel _ _ hf
    cases fuel with
    | zero => simp at hf
    | succ f => simp [headersBytes, parseHeadersF]
  | cons p ps ih =>
    intro count rest fuel hw hc hf
    have hwp : wfHdr p := hw p (List.mem_cons_self p ps)
    obtain ⟨b, t, hshape, hb13⟩ := encodeHeader_shape p hwp
    have hsh2 : headersBytes (p :: ps) ++ rest =
        b :: (t ++ (headersBytes ps ++ rest)) := by
      show (encodeHeader p ++ headersBytes ps) ++ rest = _
      rw [hshape]
      simp
    cases fuel with
    | zero => omega
    | succ f =>
      have hcount : ¬ 64 ≤ count := by
        simp only [List.length_cons] at hc; omega
      rw [hsh2, parseHeadersF_cons f count b (t ++ (headersBytes ps ++ rest))
        hb13 hcount]
      have hone : parseOneHeader (b :: (t ++ (headersBytes ps ++ rest))) =
          .done p (headersBytes ps ++ rest) := by
        have := (parses_parseOneHeader p hwp).1 (headersBytes ps ++ rest)
        rw [hshape] at this
        simpa using this
      rw [hone]
      have hlen : (headersBytes ps ++ rest).length < f := by
        rw [hsh2] at hf
        simp only [List.length_cons, List.length_append] at hf ⊢
        omega
      have hih := ih (count + 1) rest f (fun q hq => hw q (List.mem_cons_of_mem p hq))
        (by simpa [Nat.add_comm, Nat.add_left_comm, Nat.add_assoc] using
          (by simp only [List.length_cons] at hc; omega : count + 1 + ps.length ≤ 64))
        hlen
      simp [Step.bind, hih]

theorem parseHeadersF_incomplete (hdrs : List (List Nat × List Nat)) :
    ∀ count j fuel, (∀ p ∈ hdrs, wfHdr p) → count + hdrs.length ≤ 64 →
      j < (headersBytes hdrs).length → j < fuel →
      parseHeadersF fuel count ((headersBytes hdrs).take j) = .needMore := by
  induction hdrs with
  | nil =>
    intro count j fuel _ _ hj hf
    cases fuel with
    | zero => omega
    | succ f =>
      simp only [headersBytes, List.length_cons, List.length_nil] at hj
      interval_cases j <;> simp [headersBytes, parseHeadersF]
  | cons p ps ih =>
    intro count j fuel hw hc hj hf
    have hwp : wfHdr p := hw p (List.mem_cons_self p ps)
    obtain ⟨b, t, hshape, hb13⟩ := encodeHeader_shape p hwp
    cases fuel with
    | zero => omega
    | succ f =>
    cases j with
    | zero => simp [parseHeadersF]
    | succ i =>
    have hhb : headersBytes (p :: ps) = encodeHeader p ++ headersBytes ps := rfl
    rcases lt_or_le (i + 1) (encodeHeader p).length with hlt | hge
    · have ht : (headersBytes (p :: ps)).take (i + 1) =
          (encodeHeader p).take (i + 1) := by
        rw [hhb, List.take_append_eq_append_take]
        have : i + 1 - (encodeHeader p).length = 0 := by omega
        simp [this]
      have hpre := (parses_parseOneHeader p hwp).2 (i + 1) hlt
      have hsh3 : (encodeHeader p).take (i + 1) = b :: t.take i := by
        rw [hshape, List.take_succ_cons]
      rw [ht, hsh3,
        parseHeadersF_cons f count b (t.take i) hb13 (by simp at hc; omega)]
      rw [hsh3] at hpre
      rw [hpre]
      rfl
    · have hj' : i + 1 - (encodeHeader p).length < (headersBytes ps).length := by
        rw [hhb, List.length_append] at hj
        omega
      have ht : (headersBytes (p :: ps)).take (i + 1) =
          encodeHeader p ++ (headersBytes ps).take (i + 1 - (encodeHeader p).length) := by
        rw [hhb, List.take_append_eq_append_take, List.take_of_length_le hge]
      have hsh4 : encodeHeader p ++ (headersBytes ps).take (i + 1 - (encodeHeader p).length)
          = b :: (t ++ (headersBytes ps).take (i + 1 - (encodeHeader p).length)) := by
        rw [hshape]; simp
      rw [ht, hsh4,
        parseHeadersF_cons f count b _ hb13 (by simp at hc; omega)]
      have hone : ∀ S : List Nat, parseOneHeader (b :: (t ++ S)) = .done p S := by
        intro S
        have := (parses_parseOneHeader p hwp).1 S
        rw [hshape] at this
        simpa using this
      rw [hone]
      have henc1 : 1 ≤ (encodeHeader p).length := by
        rw [hshape]; simp
      have hih := ih (count + 1) (i + 1 - (encodeHeader p).length) f
        (fun q hq => hw q (List.mem_cons_of_mem p hq))
        (by simp only [List.length_cons] at hc; omega)
        hj' (by omega)
      simp [Step.bind, hih]

theorem method_token (m : Msg) (hm : m.wf) :
    m.method ≠ [] ∧ ∀ b ∈ m.method, isTchar b = true := by
  rcases hm.1 with h | h | h | h <;> rw [h] <;> exact ⟨by decide, by decide⟩

theorem from_str_wf (m : Msg) (hm : m.wf) :
    Method.from_str m.method = some ((Method.from_str m.method).getD Method.GET) := by
  rcases hm.1 with h | h | h | h <;> rw [h] <;> rfl

theorem parses_reqLine (m : Msg) (hm : m.wf) :
    Parses reqLineCore m.reqLine (m.method, m.path) := by
  obtain ⟨hm1, hm2⟩ := method_token m hm
  obtain ⟨hp1, hp2⟩ := hm.2.1
  have h3 : Parses (fun r2 =>
      (expectBytes .Version versionBytes r2).bind fun _ r3 =>
      Step.done (m.method, m.path) r3) (versionBytes ++ []) (m.method, m.path) :=
    parses_bind (parses_expectBytes versionBytes) (parses_pure (m.method, m.path))
  have h2 : Parses (fun r1 =>
      (scanTok isPathByte 32 .Token r1).bind fun p r2 =>
      (expectBytes .Version versionBytes r2).bind fun _ r3 =>
      Step.done (m.method, p) r3)
      ((m.path ++ [32]) ++ (versionBytes ++ [])) (m.method, m.path) :=
    parses_bind (@parses_scanTok isPathByte 32 ParseError.Token m.path hp1 hp2 (by decide)) h3
  have h1 : Parses (fun bs =>
      (scanTok isTchar 32 .Token bs).bind fun mm r1 =>
      (scanTok isPathByte 32 .Token r1).bind fun p r2 =>
      (expectBytes .Version versionBytes r2).bind fun _ r3 =>
      Step.done (mm, p) r3)
      ((m.method ++ [32]) ++ ((m.path ++ [32]) ++ (versionBytes ++ [])))
      (m.method, m.path) :=
    parses_bind (@parses_scanTok isTchar 32 ParseError.Token m.method hm1 hm2 (by decide)) h2
  have hseg : (m.method ++ [32]) ++ ((m.path ++ [32]) ++ (versionBytes ++ [])) =
      m.reqLine := by
    simp [Msg.reqLine]
  rw [hseg] at h1
  exact h1

theorem headBytes_decomp (m : Msg) :
    m.headBytes = m.reqLine ++ headersBytes m.hdrs := by
  simp [Msg.headBytes, Msg.reqLine]

theorem wfHdr_of_wf (m : Msg) (hm : m.wf) : ∀ p ∈ m.hdrs, wfHdr p :=
  fun p hp => hm.2.2.1 p hp

theorem httparse_complete (m : Msg) (hm : m.wf) (tail : List Nat) :
    httparseReq (m.headBytes ++ tail) = .done (m.method, m.path, m.hdrs) tail := by
  have hrl := parses_reqLine m hm
  have hshape : m.headBytes ++ tail = m.reqLine ++ (headersBytes m.hdrs ++ tail) := by
    rw [headBytes_decomp, List.append_assoc]
  rw [hshape]
  show (reqLineCore _).bind _ = _
  rw [hrl.1 (headersBytes m.hdrs ++ tail)]
  show (parseHeadersF _ 0 _).bind _ = _
  rw [parseHeadersF_complete m.hdrs 0 tail _ (wfHdr_of_wf m hm)
    (by simpa using hm.2.2.2.1)
    (by simp only [List.length_append]; omega)]
  rfl

theorem httparse_incomplete (m : Msg) (hm : m.wf) (k : Nat)
    (hk : k < m.headBytes.length) :
    httparseReq (m.headBytes.take k) = .needMore := by
  have hrl := parses_reqLine m hm
  rcases lt_or_le k m.reqLine.length with h | h
  · have ht : m.headBytes.take k = m.reqLine.take k := by
      rw [headBytes_decomp, List.take_append_eq_append_take]
      have : k - m.reqLine.length = 0 := by omega
      simp [this]
    rw [ht]
    show (reqLineCore _).bind _ = _
    rw [hrl.2 k h]
    rfl
  · have hj : k - m.reqLine.length < (headersBytes m.hdrs).length := by
      rw [headBytes_decomp, List.length_append] at hk
      omega
    have ht : m.headBytes.take k =
        m.reqLine ++ (headersBytes m.hdrs).take (k - m.reqLine.length) := by
      rw [headBytes_decomp, List.take_append_eq_append_take,
        List.take_of_length_le h]
    rw [ht]
    show (reqLineCore _).bind _ = _
    rw [hrl.1 ((headersBytes m.hdrs).take (k - m.reqLine.length))]
    show (parseHeadersF _ 0 _).bind _ = _
    rw [parseHeadersF_incomplete m.hdrs 0 (k - m.reqLine.length) _ (wfHdr_of_wf m hm)
      (by simpa using hm.2.2.2.1) hj
      (by simp only [List.length_append, List.length_take]; omega)]
    rfl

theorem parse_u8_encode (m : Msg) (hm : m.wf) (ext : List Nat) :
    parse_u8 (m.encode ++ ext) = .ok m.request m.encode.length := by
  have hbs : m.encode ++ ext = m.headBytes ++ (m.body ++ ext) := by
    simp [Msg.encode]
  have hcomp := httparse_complete m hm (m.body ++ ext)
  rw [hbs]
  show (match httparseReq (m.headBytes ++ (m.body ++ ext)) with
    | .needMore => ParseU8Result.err .UnexpectedEnd
    | .fail e => ParseU8Result.err e
    | .done (mm, p, hdrs) rest => _) = _
  rw [hcomp]
  simp only
  have hres : (m.headBytes ++ (m.body ++ ext)).length - (m.body ++ ext).length =
      m.headBytes.length := by
    simp only [List.length_append]; omega
  rw [hres, from_str_wf m hm]
  have hcl := hm.2.2.2.2
  cases hget : (foldHeaders m.hdrs).get_header contentLengthBytes with
  | none =>
    simp only [Msg.clConsistent, hget] at hcl
    simp only [Msg.request, hget, Msg.encode, List.length_append, hcl,
      List.length_nil, Nat.add_zero]
  | some s =>
    simp only [Msg.clConsistent, hget] at hcl
    simp only [hget, hcl]
    have hlt : ¬ (m.headBytes ++ (m.body ++ ext)).length <
        m.headBytes.length + m.body.length := by
      simp only [List.length_append]; omega
    rw [if_neg hlt]
    have hbody : ((m.headBytes ++ (m.body ++ ext)).drop m.headBytes.length).take
        m.body.length = m.body := by
      rw [List.drop_left, List.take_left]
    rw [hbody]
    simp [Msg.request, hget, Msg.encode]

theorem parse_u8_incomplete (m : Msg) (hm : m.wf) (k : Nat)
    (hk : k < m.encode.length) :
    parse_u8 (m.encode.take k) = .err .UnexpectedEnd := by
  rcases lt_or_le k m.headBytes.length with h | h
  · have ht : m.encode.take k = m.headBytes.take k := by
      rw [Msg.encode, List.take_append_eq_append_take]
      have : k - m.headBytes.length = 0 := by omega
      simp [this]
    rw [ht]
    show (match httparseReq (m.headBytes.take k) with
      | .needMore => ParseU8Result.err .UnexpectedEnd
      | .fail e => ParseU8Result.err e
      | .done (mm, p, hdrs) rest => _) = _
    rw [httparse_incomplete m hm k h]
  · have hj : k - m.headBytes.length < m.body.length := by
      rw [Msg.encode, List.length_append] at hk
      omega
    have ht : m.encode.take k = m.headBytes ++ m.body.take (k - m.headBytes.length) := by
      rw [Msg.encode, List.take_append_eq_append_take, List.take_of_length_le h]
    have hcomp := httparse_complete m hm (m.body.take (k - m.headBytes.length))
    rw [ht]
    show (match httparseReq (m.headBytes ++ m.body.take (k - m.headBytes.length)) with
      | .needMore => ParseU8Result.err .UnexpectedEnd
      | .fail e => ParseU8Result.err e
      | .done (mm, p, hdrs) rest => _) = _
    rw [hcomp]
    simp only
    have hres : (m.headBytes ++ m.body.take (k - m.headBytes.length)).length -
        (m.body.take (k - m.headBytes.length)).length = m.headBytes.length := by
      simp only [List.length_append]; omega
    rw [hres, from_str_wf m hm]
    have hcl := hm.2.2.2.2
    cases hget : (foldHeaders m.hdrs).get_header contentLengthBytes with
    | none =>
      simp only [Msg.clConsistent, hget] at hcl
      rw [hcl] at hj
      simp at hj
    | some s =>
      simp only [Msg.clConsistent, hget] at hcl
      simp only [hget, hcl]
      have hlt : (m.headBytes ++ m.body.take (k - m.headBytes.length)).length <
          m.headBytes.length + m.body.length := by
        simp only [List.length_append, List.length_take]; omega
      rw [if_pos hlt]

/-! ### Claim C1 -/

/-- C1: for every valid HTTP/1.1 message (request line + headers +
Content-Length-sized body, here with at most 64 header fields),
`parse_u8` returns the incomplete-input error `UnexpectedEnd` on every
strict prefix (and, being a pure function of the buffer, consumes
nothing), returns `(Request, L)` on the exact encoding of length `L`,
and still returns `(Request, L)` with any extra bytes appended. -/
theorem parse_u8_parser_laws (m : Msg) (hm : m.wf) :
    (∀ k, k < m.encode.length → parse_u8 (m.encode.take k) = .err .UnexpectedEnd) ∧
    parse_u8 m.encode = .ok m.request m.encode.length ∧
    (∀ ext, parse_u8 (m.encode ++ ext) = .ok m.request m.encode.length) :=
  ⟨fun k hk => parse_u8_incomplete m hm k hk,
   by simpa using parse_u8_encode m hm [],
   fun ext => parse_u8_encode m hm ext⟩

/-- C1 witness: the laws evaluated on `msgEx`. -/
theorem parse_u8_parser_laws_witness :
    parse_u8 (msgEx.encode.take 10) = .err .UnexpectedEnd ∧
    parse_u8 msgEx.encode = .ok msgEx.request msgEx.encode.length ∧
    parse_u8 (msgEx.encode ++ [55]) = .ok msgEx.request msgEx.encode.length :=
  ⟨(parse_u8_parser_laws msgEx (by decide)).1 10 (by decide),
   (parse_u8_parser_laws msgEx (by decide)).2.1,
   (parse_u8_parser_laws msgEx (by decide)).2.2 [55]⟩

set_option maxRecDepth 100000 in
/-- C1 counterexample: `msg65` is a complete well-formed message by the
spec's grammar (recognised method, well-formed target and header fields,
consistent Content-Length), yet `parse_u8` on its full encoding returns
the fatal `TooManyHeaders` error instead of `(Request, L)`, because the
source passes a fixed 64-entry header array to httparse. -/
theorem parse_u8_tooManyHeaders :
    msg65.method = methodGETBytes ∧
    (msg65.path ≠ [] ∧ ∀ b ∈ msg65.path, isPathByte b = true) ∧
    (∀ p ∈ msg65.hdrs, wfHdr p) ∧
    msg65.clConsistent ∧
    parse_u8 msg65.encode = .err .TooManyHeaders := by
  refine ⟨rfl, by decide, by decide, by decide, ?_⟩
  decide

/-! ### Claim C3 -/

/-- C3: a well-formed request line whose method token is not one of
GET, POST, PUT, DELETE does not produce a fatal parse error; the source
calls `.unwrap()` on the `Err` of `Method::from_str`, so `parse_u8`
panics.  The input below is the complete head
PATCH SP / SP HTTP/1.1 CR LF CR LF. -/
theorem parse_u8_unknown_method_panics :
    parse_u8 [80, 65, 84, 67, 72, 32, 47, 32,
      72, 84, 84, 80, 47, 49, 46, 49, 13, 10, 13, 10] = .panicked := by
  decide

/-- C2 counterexample: the wire value CLOSE is not exactly close, yet the
parsed request triggers connection shutdown, because `set_header`
lowercases header values before storing them. -/
theorem connection_close_uppercase_triggers :
    msgClose.hdrs = [(connectionBytes, [67, 76, 79, 83, 69])] ∧
    parse_u8 msgClose.encode = .ok msgClose.request msgClose.encode.length ∧
    workerClosesAfter msgClose.request = true := by
  refine ⟨rfl, ?_, by decide⟩
  decide

theorem assocFind_filter_ne {k j : List Nat} (hkj : k ≠ j) :
    ∀ l : List (List Nat × List Nat),
      assocFind k (l.filter (fun p => decide (p.1 ≠ j))) = assocFind k l := by
  intro l
  induction l with
  | nil => rfl
  | cons r rs ih =>
    by_cases hr : r.1 = j
    · have hfc : (r :: rs).filter (fun p => decide (p.1 ≠ j)) =
          rs.filter (fun p => decide (p.1 ≠ j)) := by simp [hr]
      have hrk : r.1 ≠ k := fun h => hkj (h.symm.trans hr)
      have hstep : assocFind k (r :: rs) = assocFind k rs := by
        rw [assocFind, if_neg hrk]
      rw [hfc, hstep, ih]
    · have hfc : (r :: rs).filter (fun p => decide (p.1 ≠ j)) =
          r :: rs.filter (fun p => decide (p.1 ≠ j)) := by simp [hr]
      rw [hfc]
      by_cases hk : r.1 = k
      · rw [assocFind, if_pos hk, assocFind, if_pos hk]
      · rw [assocFind, if_neg hk, assocFind, if_neg hk, ih]

/-- Looking a name up in a header map built by folding `set_header` over
a raw wire header list yields the lowercased value of the LAST field of
that name (repeated headers fold to the last value, names compared after
lowercasing), falling back to the accumulator when the name is absent. -/
theorem foldHeaders_get (l : List (List Nat × List Nat)) :
    ∀ (acc : Headers) (q : List Nat),
      (l.foldl (fun h p => h.set_header p.1 p.2) acc).get_header q =
        match lastValueFor (lowerBytes q) l with
        | some v => some (lowerBytes v)
        | none => acc.get_header q := by
  induction l with
  | nil => intro acc q; rfl
  | cons p ps ih =>
    intro acc q
    rw [List.foldl_cons, ih (acc.set_header p.1 p.2) q]
    cases hps : lastValueFor (lowerBytes q) ps with
    | some v => rw [lastValueFor, hps]
    | none =>
      rw [lastValueFor, hps]
      by_cases hp : lowerBytes p.1 = lowerBytes q
      · rw [if_pos hp]
        show assocFind (lowerBytes q)
          ((lowerBytes p.1, lowerBytes p.2) :: _) = _
        rw [assocFind, if_pos hp]
      · rw [if_neg hp]
        show assocFind (lowerBytes q)
          ((lowerBytes p.1, lowerBytes p.2) ::
            acc.map.filter (fun r => decide (r.1 ≠ lowerBytes p.1))) =
          acc.get_header q
        rw [assocFind, if_neg hp,
          assocFind_filter_ne (fun h => hp h.symm) acc.map]
        rfl

/-- C2 (amended): the worker compares the STORED value exactly to close,
but `set_header` stores values ASCII-lowercased, so the effective test on
the wire is case-insensitive: for ANY request whose header map was built
by folding `set_header` over the raw wire header list (as the request
parser builds it), shutdown is triggered iff the request has a
Connection-named header whose last raw value ASCII-lowercases to close —
in particular CLOSE triggers it, and a request with no Connection header
or with a value that does not lowercase to close is not shut down. -/
theorem connection_close_amended (req : Request)
    (raw : List (List Nat × List Nat)) (hh : req.headers = foldHeaders raw) :
    workerClosesAfter req = true ↔
      ∃ v, lastValueFor (lowerBytes connectionBytes) raw = some v ∧
        lowerBytes v = closeBytes := by
  have hget := foldHeaders_get raw Headers.new connectionBytes
  rw [← foldHeaders, ← hh] at hget
  cases hlast : lastValueFor (lowerBytes connectionBytes) raw with
  | none =>
    rw [hlast] at hget
    have hnone : req.headers.get_header connectionBytes = none := hget
    simp [workerClosesAfter, hnone, hlast]
  | some v =>
    rw [hlast] at hget
    simp [workerClosesAfter, hget, hlast]

/-- C2 witness: amended claim evaluated on parser-built maps where the
Connection field is FOLLOWED by a Host field (so Connection is not the
last insertion), with value CLOSE (triggers) and keep (does not). -/
theorem connection_close_amended_witness :
    (workerClosesAfter ⟨.GET, [47], .HTTP11,
        foldHeaders [(connectionBytes, [67, 76, 79, 83, 69]),
          ([72, 111, 115, 116], [120])], none⟩ = true ↔
      ∃ v, lastValueFor (lowerBytes connectionBytes)
          [(connectionBytes, [67, 76, 79, 83, 69]), ([72, 111, 115, 116], [120])] =
            some v ∧ lowerBytes v = closeBytes) ∧
    (workerClosesAfter ⟨.GET, [47], .HTTP11,
        foldHeaders [(connectionBytes, [107, 101, 101, 112]),
          ([72, 111, 115, 116], [120])], none⟩ = true ↔
      ∃ v, lastValueFor (lowerBytes connectionBytes)
          [(connectionBytes, [107, 101, 101, 112]), ([72, 111, 115, 116], [120])] =
            some v ∧ lowerBytes v = closeBytes) :=
  ⟨connection_close_amended _ _ rfl, connection_close_amended _ _ rfl⟩

theorem encode_length_pos (m : Msg) : 0 < m.encode.length := by
  simp only [Msg.encode, Msg.headBytes, List.length_append, List.length_cons]
  omega

theorem parse_bufF_pipeline (ms : List Msg) :
    ∀ fuel suffix, (∀ m ∈ ms, m.wf) →
      parse_u8 suffix = .err .UnexpectedEnd →
      ((ms.map Msg.encode).flatten ++ suffix).length < fuel →
      parse_bufF fuel ((ms.map Msg.encode).flatten ++ suffix) =
        .ok (ms.map Msg.request) suffix := by
  induction ms with
  | nil =>
    intro fuel suffix _ hsuf hf
    cases fuel with
    | zero => simp at hf
    | succ f => simp [parse_bufF, hsuf]
  | cons m ms ih =>
    intro fuel suffix hw hsuf hf
    have hwm : m.wf := hw m (List.mem_cons_self m ms)
    have hshape : ((m :: ms).map Msg.encode).flatten ++ suffix =
        m.encode ++ ((ms.map Msg.encode).flatten ++ suffix) := by
      simp
    rw [hshape] at hf ⊢
    cases fuel with
    | zero => simp at hf
    | succ f =>
    have hparse := parse_u8_encode m hwm ((ms.map Msg.encode).flatten ++ suffix)
    have hdrop : (m.encode ++ ((ms.map Msg.encode).flatten ++ suffix)).drop
        m.encode.length = (ms.map Msg.encode).flatten ++ suffix :=
      List.drop_left _ _
    by_cases hemp : (ms.map Msg.encode).flatten ++ suffix = []
    · obtain ⟨hms, hsufe⟩ := List.append_eq_nil.mp hemp
      have hms' : ms = [] := by
        cases ms with
        | nil => rfl
        | cons m2 t =>
          exfalso
          have : m2.encode ++ ((t.map Msg.encode).flatten) = [] := by
            simpa using hms
          obtain ⟨h1, _⟩ := List.append_eq_nil.mp this
          have := encode_length_pos m2
          rw [h1] at this
          simp at this
      subst hms'
      subst hsufe
      have hparse2 : parse_u8 m.encode = .ok m.request m.encode.length := by
        simpa using hparse
      simp [parse_bufF, hparse2, List.drop_length]
    · have hfl : ((ms.map Msg.encode).flatten ++ suffix).length < f := by
        have hp := encode_length_pos m
        simp only [List.length_append] at hf ⊢
        omega
      have hih := ih f suffix (fun q hq => hw q (List.mem_cons_of_mem m hq)) hsuf hfl
      have hne : ((ms.map Msg.encode).flatten ++ suffix).isEmpty = false := by
        simpa [List.isEmpty_iff] using hemp
      simp only [parse_bufF, hparse, hdrop, hne, Bool.false_eq_true, if_neg,
        not_false_iff, hih, List.map_cons]

theorem parse_bufF_error (ms : List Msg) :
    ∀ fuel bad e, (∀ m ∈ ms, m.wf) →
      parse_u8 bad = .err e → e ≠ .UnexpectedEnd →
      ((ms.map Msg.encode).flatten ++ bad).length < fuel →
      parse_bufF fuel ((ms.map Msg.encode).flatten ++ bad) = .err e := by
  induction ms with
  | nil =>
    intro fuel bad e _ hbad he hf
    cases fuel with
    | zero => simp at hf
    | succ f =>
      cases e
      case UnexpectedEnd => exact absurd rfl he
      all_goals simp [parse_bufF, hbad]
  | cons m ms ih =>
    intro fuel bad e hw hbad he hf
    have hwm : m.wf := hw m (List.mem_cons_self m ms)
    have hbadne : bad ≠ [] := by
      intro h
      rw [h] at hbad
      have : parse_u8 [] = .err .UnexpectedEnd := by decide
      rw [this] at hbad
      exact he (ParseU8Result.err.inj hbad).symm
    have hshape : ((m :: ms).map Msg.encode).flatten ++ bad =
        m.encode ++ ((ms.map Msg.encode).flatten ++ bad) := by
      simp
    rw [hshape] at hf ⊢
    cases fuel with
    | zero => simp at hf
    | succ f =>
    have hparse := parse_u8_encode m hwm ((ms.map Msg.encode).flatten ++ bad)
    have hdrop : (m.encode ++ ((ms.map Msg.encode).flatten ++ bad)).drop
        m.encode.length = (ms.map Msg.encode).flatten ++ bad :=
      List.drop_left _ _
    have hne : ((ms.map Msg.encode).flatten ++ bad).isEmpty = false := by
      have : (ms.map Msg.encode).flatten ++ bad ≠ [] := by
        intro h
        exact hbadne (List.append_eq_nil.mp h).2
      simpa [List.isEmpty_iff] using this
    have hfl : ((ms.map Msg.encode).flatten ++ bad).length < f := by
      have hp := encode_length_pos m
      simp only [List.length_append] at hf ⊢
      omega
    have hih := ih f bad e (fun q hq => hw q (List.mem_cons_of_mem m hq)) hbad he hfl
    simp only [parse_bufF, hparse, hdrop, hne, Bool.false_eq_true, if_neg,
      not_false_iff, hih]

/-- C4: on a buffer holding N complete well-formed requests followed by a
strict prefix of a further request, one `parse_buf` call returns exactly
the N requests in arrival order with the unconsumed suffix as the new
buffer (it stops at the parser's `UnexpectedEnd`); and when the leftover
bytes instead produce a fatal parse error, `parse_buf` propagates that
error without returning the requests parsed so far. -/
theorem parse_buf_pipeline :
    (∀ (ms : List Msg) (m2 : Msg) (k : Nat), (∀ m ∈ ms, m.wf) → m2.wf →
      k < m2.encode.length →
      parse_buf ((ms.map Msg.encode).flatten ++ m2.encode.take k) =
        .ok (ms.map Msg.request) (m2.encode.take k)) ∧
    (∀ (ms : List Msg) (bad : List Nat) (e : ParseError), (∀ m ∈ ms, m.wf) →
      parse_u8 bad = .err e → e ≠ .UnexpectedEnd →
      parse_buf ((ms.map Msg.encode).flatten ++ bad) = .err e) := by
  constructor
  · intro ms m2 k hw hw2 hk
    exact parse_bufF_pipeline ms _ _ hw (parse_u8_incomplete m2 hw2 k hk)
      (Nat.lt_succ_self _)
  · intro ms bad e hw hbad he
    exact parse_bufF_error ms _ bad e hw hbad he (Nat.lt_succ_self _)

/-- C4 witness: two pipelined copies of `msgEx` followed by 5 bytes of a
third request yield exactly the two requests and keep the 5 bytes; a
buffer ending in a malformed line propagates the fatal error. -/
theorem parse_buf_pipeline_witness :
    parse_buf (([msgEx, msgEx].map Msg.encode).flatten ++ msgEx.encode.take 5) =
      .ok [msgEx.request, msgEx.request] (msgEx.encode.take 5) ∧
    parse_buf (([msgEx].map Msg.encode).flatten ++ [32]) = .err .Token :=
  ⟨parse_buf_pipeline.1 [msgEx, msgEx] msgEx 5 (by decide) (by decide) (by decide),
   parse_buf_pipeline.2 [msgEx] [32] .Token (by decide) (by decide) (by decide)⟩

theorem lowerBytes_noUpper (v : List Nat) : noUpper (lowerBytes v) := by
  intro b hb
  obtain ⟨a, _, rfl⟩ := List.mem_map.mp hb
  unfold lowerByte
  split <;> omega

theorem assocFind_mem {k v : List Nat} :
    ∀ {l : List (List Nat × List Nat)}, assocFind k l = some v → (k, v) ∈ l := by
  intro l
  induction l with
  | nil => intro h; simp [assocFind] at h
  | cons p ps ih =>
    intro h
    by_cases hp : p.1 = k
    · rw [assocFind, if_pos hp] at h
      have hv := Option.some.inj h
      subst hp
      rw [← hv]
      exact List.mem_cons_self p ps
    · rw [assocFind, if_neg hp] at h
      exact List.mem_cons_of_mem p (ih h)

theorem valuesLower_set (h : Headers) (n v : List Nat) (hh : h.valuesLower) :
    (h.set_header n v).valuesLower := by
  intro p hp
  rcases List.mem_cons.mp hp with hcase | hcase
  · rw [hcase]
    exact lowerBytes_noUpper v
  · exact hh p (List.mem_of_mem_filter hcase)

theorem valuesLower_fold (l : List (List Nat × List Nat)) :
    (foldHeaders l).valuesLower := by
  have hgen : ∀ (xs : List (List Nat × List Nat)) (acc : Headers),
      acc.valuesLower → (xs.foldl (fun h p => h.set_header p.1 p.2) acc).valuesLower := by
    intro xs
    induction xs with
    | nil => intro acc hacc; exact hacc
    | cons p ps ih =>
      intro acc hacc
      exact ih _ (valuesLower_set acc p.1 p.2 hacc)
  exact hgen l Headers.new (by intro p hp; simp [Headers.new] at hp)

/-- C9: `set_header` stores the value ASCII-lowercased (not only the
name), so a value set under a name is read back lowercased, and any
value returned by `get_header` on a header map built by `set_header`
calls (as the request parser builds it) contains no uppercase ASCII
letter — e.g. the wire value TEXT/HTML is observed as text/html. -/
theorem headers_values_lowercased :
    (∀ (h : Headers) (n v : List Nat),
      (h.set_header n v).get_header n = some (lowerBytes v)) ∧
    (∀ (raw : List (List Nat × List Nat)) (q v : List Nat),
      (foldHeaders raw).get_header q = some v → noUpper v) := by
  constructor
  · intro h n v
    show assocFind (lowerBytes n) ((lowerBytes n, lowerBytes v) :: _) = _
    simp [assocFind]
  · intro raw q v hget
    exact valuesLower_fold raw (lowerBytes q, v) (assocFind_mem hget)

/-- C9 witness: a client sending header value TEXT/HTML (raw bytes) is
observed with the lowercase value text/html, which has no uppercase. -/
theorem headers_values_lowercased_witness :
    noUpper [116, 101, 120, 116, 47, 104, 116, 109, 108] :=
  headers_values_lowercased.2 [([97], [84, 69, 88, 84, 47, 72, 84, 77, 76])]
    [65] [116, 101, 120, 116, 47, 104, 116, 109, 108] (by decide)

/-- C10: LocalQueue is a bounded LIFO stack: a push below the bound
appends and an immediate pop returns that most recently pushed element
restoring the previous state; a push at 65535 elements hands the
element back in `Err(Push v)` with the contents untouched; a pop on an
empty queue yields `Err(Empty)`. -/
theorem localQueue_lifo_bounded {α : Type} :
    (∀ (q : LocalQueue α) (v : α), q.inner.length < localQueueSize →
      q.push v = .ok ⟨q.inner ++ [v]⟩ ∧
      (LocalQueue.mk (q.inner ++ [v])).pop = .ok (v, q)) ∧
    (∀ (q : LocalQueue α) (v : α), localQueueSize ≤ q.inner.length →
      q.push v = .error (.Push v)) ∧
    (∀ q : LocalQueue α, q.inner = [] → q.pop = .error .Empty) := by
  refine ⟨fun q v hlt => ⟨?_, ?_⟩, fun q v hge => ?_, fun q hq => ?_⟩
  · simp [LocalQueue.push, hlt, Nat.not_le.mpr hlt]
  · simp [LocalQueue.pop, List.getLast?_concat, List.dropLast_concat]
  · simp [LocalQueue.push, hge]
  · simp [LocalQueue.pop, hq]

/-- C10 witness: concrete LIFO pop of the last push, full-queue
rejection at 65535 elements, and the empty-pop error. -/
theorem localQueue_lifo_bounded_witness :
    (LocalQueue.mk [1, 2]).push 3 = .ok ⟨[1, 2, 3]⟩ ∧
    (LocalQueue.mk [1, 2, 3]).pop = .ok (3, ⟨[1, 2]⟩) ∧
    (LocalQueue.mk (List.replicate 65535 (0 : Nat))).push 7 = .error (.Push 7) ∧
    (LocalQueue.mk ([] : List Nat)).pop = .error .Empty :=
  ⟨(localQueue_lifo_bounded.1 ⟨[1, 2]⟩ 3 (by decide)).1,
   (localQueue_lifo_bounded.1 ⟨[1, 2]⟩ 3 (by decide)).2,
   localQueue_lifo_bounded.2.1 ⟨List.replicate 65535 0⟩ 7
     (by simp only [localQueueSize, List.length_replicate]; exact le_refl _),
   localQueue_lifo_bounded.2.2 ⟨[]⟩ rfl⟩

/-- C5 counterexample: calling `start` a second time on a thread where
it was already called does NOT panic: it returns normally, silently
re-installing fresh reactor and executor handles over the old ones. -/
theorem context_start_twice_no_panic :
    (context_start Context.empty 1 2).bind (fun c1 => context_start c1 3 4) =
      some { handle := some 3, executor := some 4, worker := none } := rfl

/-- C5 (amended): a second `start` on the same thread succeeds (no
panic) and replaces the thread-local reactor and executor handles with
the fresh ones, leaving the worker cell alone. -/
theorem context_start_twice_replaces (c : Context) (h1 p1 h2 p2 : Nat) :
    (context_start c h1 p1).bind (fun c1 => context_start c1 h2 p2) =
      some { handle := some h2, executor := some p2, worker := c.worker } := rfl

theorem populateAux_eq (n : Nat) : ∀ k, populateAux n k =
    (List.range n).map (fun i => k + i) := by
  induction n with
  | zero => intro k; simp [populateAux]
  | succ n ih =>
    intro k
    rw [populateAux, ih (k + 1), List.range_succ_eq_map, List.map_cons,
      List.map_map]
    refine congrArg₂ _ (by omega) (List.map_congr_left ?_)
    intro i _
    simp [Function.comp]
    omega

theorem reactorNew_freeQueue (C : Nat) :
    (reactorNew C).freeQueue = (List.range C).drop 1 := by
  cases C with
  | zero => simp [reactorNew, populateAux]
  | succ c =>
    rw [reactorNew]
    simp only [Nat.add_sub_cancel]
    rw [populateAux_eq c 1, List.range_succ_eq_map, List.drop_succ_cons,
      List.drop_zero]
    exact (List.map_congr_left (fun i _ => by omega)).symm

theorem removeKey_length {k : Nat} :
    ∀ {l : List (Nat × Interest)}, k ∈ l.map Prod.fst →
      (removeKey k l).length + 1 = l.length := by
  intro l
  induction l with
  | nil => intro h; simp at h
  | cons q rest ih =>
    intro h
    by_cases hq : q.1 = k
    · simp [removeKey, hq]
    · have hmem : k ∈ rest.map Prod.fst := by
        rcases List.mem_map.mp h with ⟨a, ha, hak⟩
        rcases List.mem_cons.mp ha with h1 | h1
        · exact absurd (h1 ▸ hak) hq
        · exact List.mem_map.mpr ⟨a, h1, hak⟩
      simp only [removeKey, hq, if_neg, ite_false, List.length_cons]
      rw [← ih hmem]

theorem runReactor_inv : ∀ (ops : List ROp) (r r2 : ReactorModel),
    runReactor r ops = some r2 →
    r2.freeQueue.length + r2.registrations.length =
      r.freeQueue.length + r.registrations.length := by
  intro ops
  induction ops with
  | nil =>
    intro r r2 h
    cases Option.some.inj h
    rfl
  | cons op ops ih =>
    intro r r2 h
    cases op with
    | reg =>
      rw [runReactor] at h
      cases hq : r.freeQueue with
      | nil =>
        simp only [handleRegister, hq] at h
        cases h
      | cons k rest =>
        simp only [handleRegister, hq] at h
        have hlen := ih _ _ h
        simp only [List.length_cons] at hlen ⊢
        omega
    | dereg k =>
      rw [runReactor] at h
      by_cases hmem : k ∈ r.registrations.map Prod.fst
      · rw [if_pos hmem] at h
        have hlen := ih _ _ h
        have hrk := removeKey_length hmem
        simp only [handleDeregister, List.length_append, List.length_cons,
          List.length_nil] at hlen
        omega
      · rw [if_neg hmem] at h
        cases h

/-- C6: after `Reactor::new` with capacity `C`, slot 0 is the self-wake
token and exactly the keys 1..C-1 sit in the free queue; `register`
fails fatally exactly when the free queue is empty and otherwise
consumes one free waker, recording the source under that key for
readable interest; `deregister` returns one waker to the queue; hence
over any legal trace that ends with no registration outstanding the
free count is back to the initial C-1. -/
theorem reactor_waker_pool :
    (∀ C : Nat, (reactorNew C).wakerToken = 0 ∧
      (reactorNew C).freeQueue = (List.range C).drop 1 ∧
      (reactorNew C).freeQueue.length = C - 1) ∧
    (∀ r : ReactorModel, handleRegister r = none ↔ r.freeQueue = []) ∧
    (∀ (r : ReactorModel) (k : Nat) (r2 : ReactorModel),
      handleRegister r = some (k, r2) →
      r2.freeQueue.length + 1 = r.freeQueue.length ∧
      r2.registrations = (k, Interest.readable) :: r.registrations) ∧
    (∀ (r : ReactorModel) (k : Nat),
      (handleDeregister r k).freeQueue.length = r.freeQueue.length + 1) ∧
    (∀ (C : Nat) (ops : List ROp) (r : ReactorModel),
      runReactor (reactorNew C) ops = some r → r.registrations = [] →
      r.freeQueue.length = C - 1) := by
  refine ⟨fun C => ⟨rfl, reactorNew_freeQueue C, ?_⟩, fun r => ?_, ?_, ?_, ?_⟩
  · rw [reactorNew_freeQueue C]
    simp
  · constructor
    · intro h
      cases hq : r.freeQueue with
      | nil => rfl
      | cons k rest => rw [handleRegister, hq] at h; cases h
    · intro h
      rw [handleRegister, h]
  · intro r k r2 h
    cases hq : r.freeQueue with
    | nil => rw [handleRegister, hq] at h; cases h
    | cons k0 rest =>
      rw [handleRegister, hq] at h
      obtain ⟨h1, h2⟩ := Prod.mk.inj (Option.some.inj h)
      constructor
      · rw [← h2]
        simp [hq]
      · rw [← h2, h1]
  · intro r k
    simp [handleDeregister]
  · intro C ops r hrun hreg
    have hinv := runReactor_inv ops _ _ hrun
    rw [hreg] at hinv
    simp only [List.length_nil, Nat.add_zero] at hinv
    rw [hinv, reactorNew_freeQueue C]
    simp [reactorNew]

/-- C6 witness: capacity 4 gives free keys [1, 2, 3]; a legal trace of
three registers and three matching deregisters ends with an empty
registration set and the free count back at 3. -/
theorem reactor_waker_pool_witness :
    (reactorNew 4).freeQueue = [1, 2, 3] ∧
    ({ capacity := 4, wakerToken := 0, freeQueue := [1, 3, 2],
       registrations := [] } : ReactorModel).freeQueue.length = 4 - 1 :=
  ⟨by decide,
   reactor_waker_pool.2.2.2.2 4
     [.reg, .dereg 1, .reg, .reg, .dereg 3, .dereg 2]
     { capacity := 4, wakerToken := 0, freeQueue := [1, 3, 2],
       registrations := [] }
     (by decide) rfl⟩

/-- C7: an event for the self-wake token is discarded with no effect; an
event for another token takes the stored waker out of the slot and wakes
it; and handling the same slot twice without an intervening `set_waker`
wakes nothing the second time, so a waker is consumed at most once per
readiness event. -/
theorem reactor_handle_event :
    (∀ s : SlotTable, handle_event s s.wakerToken = (s, none)) ∧
    (∀ (s : SlotTable) (t w : Nat), t ≠ s.wakerToken →
      s.slots[t]? = some (some w) →
      handle_event s t = ({ s with slots := s.slots.set t none }, some w)) ∧
    (∀ (s : SlotTable) (t : Nat),
      (handle_event (handle_event s t).1 t).2 = none) := by
  refine ⟨fun s => by simp [handle_event], fun s t w ht hslot => ?_, fun s t => ?_⟩
  · simp [handle_event, ht, hslot]
  · by_cases ht : t = s.wakerToken
    · subst ht
      simp [handle_event]
    · cases hslot : s.slots[t]? with
      | none => simp [handle_event, ht, hslot]
      | some c =>
        cases c with
        | none => simp [handle_event, ht, hslot]
        | some w =>
          have htlt : t < s.slots.length := by
            by_contra hge
            rw [List.getElem?_eq_none (Nat.le_of_not_lt hge)] at hslot
            cases hslot
          have hsecond : (s.slots.set t none)[t]? = some none := by
            rw [List.getElem?_set_self]
            simp [htlt]
          simp [handle_event, ht, hslot, hsecond]

/-- C7 witness: the conditional parts evaluated on a concrete table
(self-wake token 0, slot 2 holding waker 9). -/
theorem reactor_handle_event_witness :
    handle_event ⟨0, [none, none, some 9]⟩ 2 =
      (⟨0, [none, none, none]⟩, some 9) ∧
    (handle_event (handle_event ⟨0, [none, none, some 9]⟩ 2).1 2).2 = none :=
  ⟨reactor_handle_event.2.1 ⟨0, [none, none, some 9]⟩ 2 9 (by decide) (by decide),
   reactor_handle_event.2.2 ⟨0, [none, none, some 9]⟩ 2⟩

theorem runBO_done (c : Nat) (b : Bool) :
    ∀ m, runBO m ⟨none, c, b⟩ = ⟨none, c, b⟩ := by
  intro m
  induction m with
  | zero => rfl
  | succ m ih => rw [runBO, processTask]; exact ih

theorem runBO_closed (m : Nat) : ∀ n, runBO m (initBO n) =
    if m ≤ n then ⟨some (n - m), 0, false⟩ else ⟨none, 1, true⟩ := by
  induction m with
  | zero =>
    intro n
    simp [runBO, initBO]
  | succ m ih =>
    intro n
    cases n with
    | zero =>
      rw [runBO, initBO, processTask]
      simp only [Nat.not_succ_le_zero, if_neg, ite_false]
      exact runBO_done 1 true m
    | succ j =>
      rw [runBO, initBO, processTask]
      have := ih j
      rw [initBO] at this
      rw [this]
      by_cases hmj : m ≤ j
      · rw [if_pos hmj, if_pos (by omega)]
        have : j - m = j + 1 - (m + 1) := by omega
        rw [this]
      · rw [if_neg hmj, if_neg (by omega)]

/-- C8: over any number `m` of worker deliveries of a `block_on` task
whose future needs `n` polls, the notify channel is signalled at most
once; it is signalled exactly when the future has been polled to
completion (never before, and never twice even when the completed task
is woken and dequeued again, its empty future slot preventing re-poll
and re-notify); and `block_on` returns precisely when that completion
signal exists. -/
theorem block_on_notify_once (n m : Nat) :
    (runBO m (initBO n)).notifyCount ≤ 1 ∧
    ((runBO m (initBO n)).notifyCount = 1 ↔ (runBO m (initBO n)).completed = true) ∧
    ((runBO m (initBO n)).completed = true ↔ n < m) ∧
    blockOnReturns n m = (runBO m (initBO n)).completed := by
  rw [blockOnReturns, runBO_closed m n]
  by_cases h : m ≤ n
  · rw [if_pos h]
    refine ⟨by simp, by simp, by simp; omega, by simp⟩
  · rw [if_neg h]
    refine ⟨by simp, by simp, by simp; omega, by simp⟩

end MiniAsyncHttp

